import Mathlib

/-!
Shallow embedding of the NEAR proof-of-timestamp contract (src/src/lib.rs).

The contract state is `ProofOfTimestamp`, holding `records :
HashMap<String, TimestampedFile>`, modelled here as an association list
with HashMap insert/get semantics.  The external collaborators are
modelled as explicit inputs:
  * the Time Source (`env::block_timestamp`, a `u64`) becomes an explicit
    `Nat` argument of `stamp` (no arithmetic is ever performed on it, so
    no wraparound can occur and `Nat` is faithful);
  * the Hash Function (`env::keccak256 : bytes -> bytes`) becomes an
    explicit parameter `keccak : List Nat → List Nat` over byte lists
    (each byte a `Nat`), left uninterpreted;
  * `env::log` is observability only and does not touch the data model,
    so it is not part of the state.
-/

namespace ProofOfTimestampContract

/-- Bytes of a string, as in Rust `str::as_bytes` (UTF-8), each byte a `Nat`. -/
def strBytes (s : String) : List Nat :=
  (s.data.flatMap String.utf8EncodeChar).map UInt8.toNat

/-- `TimestampedFile { timestamp: u64, time_stamped_file_hash: Vec<u8> }`. -/
structure TimestampedFile where
  timestamp : Nat
  time_stamped_file_hash : List Nat
  deriving DecidableEq, Repr

/-- `TimestampedFile::default()`: `timestamp = 0`, empty byte vector. -/
def TimestampedFile.default : TimestampedFile :=
  { timestamp := 0, time_stamped_file_hash := [] }

/-- The `records` map: association list with at most one entry per key. -/
abbrev Records := List (String × TimestampedFile)

/-- `HashMap::get`: the value stored under `k`, if any. -/
def Records.get : Records → String → Option TimestampedFile
  | [], _ => none
  | (k', v') :: rest, k => if k' = k then some v' else Records.get rest k

/-- `HashMap::insert`: overwrite the entry for `k` if present, else add it. -/
def Records.insert : Records → String → TimestampedFile → Records
  | [], k, v => [(k, v)]
  | (k', v') :: rest, k, v =>
      if k' = k then (k, v) :: rest else (k', v') :: Records.insert rest k v

/-- The keys currently present in the map. -/
def Records.keys : Records → List String
  | [] => []
  | (k, _) :: rest => k :: Records.keys rest

/-- `pub struct ProofOfTimestamp { records: HashMap<String, TimestampedFile> }`. -/
structure ProofOfTimestamp where
  records : Records
  deriving DecidableEq, Repr

/-- `ProofOfTimestamp::default()`: the empty ledger. -/
def ProofOfTimestamp.default : ProofOfTimestamp :=
  { records := [] }

/-- The commitment computed inside `stamp`:
`env::keccak256(format!("{}{}", file_hash, block_timestamp.to_string()).as_bytes())`.
`toString` on `Nat` is the decimal representation, as `u64::to_string` is. -/
def commitment (keccak : List Nat → List Nat) (file_hash : String)
    (block_timestamp : Nat) : List Nat :=
  keccak (strBytes (file_hash ++ toString block_timestamp))

/-- `pub fn stamp(&mut self, file_hash: String)`.  The block timestamp read
from the host is the explicit argument `block_timestamp`. -/
def stamp (keccak : List Nat → List Nat) (self : ProofOfTimestamp)
    (file_hash : String) (block_timestamp : Nat) : ProofOfTimestamp :=
  { records :=
      self.records.insert file_hash
        { timestamp := block_timestamp,
          time_stamped_file_hash := commitment keccak file_hash block_timestamp } }

/-- `pub fn get_stamp(&self, file_hash: String) -> TimestampedFile`. -/
def get_stamp (self : ProofOfTimestamp) (file_hash : String) : TimestampedFile :=
  match self.records.get file_hash with
  | some s => s
  | none => TimestampedFile.default

/-- An invocation of one of the two exposed operations.  A `stamp` call
carries the time the Time Source returns during it. -/
inductive Op where
  | stamp (file_hash : String) (t : Nat)
  | get (file_hash : String)
  deriving DecidableEq, Repr

/-- Execute one call against the ledger (`get_stamp` takes `&self` and
returns no new state). -/
def applyOp (keccak : List Nat → List Nat) (s : ProofOfTimestamp) :
    Op → ProofOfTimestamp
  | .stamp h t => stamp keccak s h t
  | .get _ => s

/-- Execute a sequence of calls. -/
def runOps (keccak : List Nat → List Nat) (s : ProofOfTimestamp)
    (ops : List Op) : ProofOfTimestamp :=
  ops.foldl (applyOp keccak) s

/-- The `(file_hash, time)` pairs fed to `stamp` in a call sequence. -/
def stampsOf : List Op → List (String × Nat)
  | [] => []
  | .stamp h t :: rest => (h, t) :: stampsOf rest
  | .get _ :: rest => stampsOf rest

/-- Feed a sequence of `(file_hash, time)` pairs to `stamp`. -/
def runStamps (keccak : List Nat → List Nat) (s : ProofOfTimestamp)
    (pairs : List (String × Nat)) : ProofOfTimestamp :=
  pairs.foldl (fun st p => stamp keccak st p.1 p.2) s

/-- Ledger invariant: every stored record commits to its own key and its
own stored timestamp. -/
def Inv (keccak : List Nat → List Nat) (s : ProofOfTimestamp) : Prop :=
  ∀ p ∈ s.records, p.2.time_stamped_file_hash = commitment keccak p.1 p.2.timestamp

/-- A concrete stand-in for the external hash function, used to evaluate
the theorems on concrete inputs.  It returns a one-byte digest, so it is
never empty. -/
def keccakW : List Nat → List Nat :=
  fun b => [b.length]

end ProofOfTimestampContract

namespace ProofOfTimestampContract

/-! Lemmas about the records map -/

theorem Records.get_insert_self (m : Records) (k : String) (v : TimestampedFile) :
    (m.insert k v).get k = some v := by
  induction m with
  | nil => simp [Records.insert, Records.get]
  | cons p rest ih =>
    obtain ⟨k', v'⟩ := p
    by_cases hk : k' = k
    · simp [Records.insert, Records.get, hk]
    · simp [Records.insert, Records.get, hk, ih]

theorem Records.get_insert_ne (m : Records) (k k₂ : String) (v : TimestampedFile)
    (hne : k ≠ k₂) : (m.insert k v).get k₂ = m.get k₂ := by
  induction m with
  | nil => simp [Records.insert, Records.get, hne]
  | cons p rest ih =>
    obtain ⟨k', v'⟩ := p
    by_cases hk : k' = k
    · subst hk
      simp [Records.insert, Records.get, hne, Ne.symm hne]
    · by_cases hk₂ : k' = k₂ <;>
        simp [Records.insert, Records.get, hk, hk₂, Ne.symm hne, ih]

theorem Records.insert_insert_self (m : Records) (k : String)
    (v₁ v₂ : TimestampedFile) : (m.insert k v₁).insert k v₂ = m.insert k v₂ := by
  induction m with
  | nil => simp [Records.insert]
  | cons p rest ih =>
    obtain ⟨k', v'⟩ := p
    by_cases hk : k' = k
    · simp [Records.insert, hk]
    · simp [Records.insert, hk, ih]

theorem Records.mem_keys_insert_of_mem (m : Records) (k k₂ : String)
    (v : TimestampedFile) (hk : k₂ ∈ m.keys) : k₂ ∈ (m.insert k v).keys := by
  induction m with
  | nil => simp [Records.keys] at hk
  | cons p rest ih =>
    obtain ⟨k', v'⟩ := p
    by_cases hkk : k' = k
    · subst hkk
      simpa [Records.keys, Records.insert] using hk
    · simp [Records.keys, Records.insert, hkk] at hk ⊢
      rcases hk with hk | hk
      · exact Or.inl hk
      · exact Or.inr (ih hk)

theorem Records.self_mem_keys_insert (m : Records) (k : String)
    (v : TimestampedFile) : k ∈ (m.insert k v).keys := by
  induction m with
  | nil => simp [Records.insert, Records.keys]
  | cons p rest ih =>
    obtain ⟨k', v'⟩ := p
    by_cases hk : k' = k <;> simp [Records.insert, Records.keys, hk] at ih ⊢
    exact Or.inr ih

theorem Records.not_mem_keys_insert (m : Records) (k k₂ : String)
    (v : TimestampedFile) (hne : k ≠ k₂) (hk : k₂ ∉ m.keys) :
    k₂ ∉ (m.insert k v).keys := by
  induction m with
  | nil => simp [Records.insert, Records.keys, Ne.symm hne]
  | cons p rest ih =>
    obtain ⟨k', v'⟩ := p
    by_cases hkk : k' = k
    · subst hkk
      simp [Records.keys, Records.insert, Ne.symm hne] at hk ⊢
      exact hk
    · simp [Records.keys, Records.insert, hkk] at hk ⊢
      exact ⟨hk.1, ih hk.2⟩

theorem Records.get_eq_none_of_not_mem_keys (m : Records) (k : String)
    (hk : k ∉ m.keys) : m.get k = none := by
  induction m with
  | nil => simp [Records.get]
  | cons p rest ih =>
    obtain ⟨k', v'⟩ := p
    simp [Records.keys] at hk
    simp [Records.get, Ne.symm hk.1, ih hk.2]

theorem Records.mem_insert (m : Records) (k : String) (v : TimestampedFile)
    (p : String × TimestampedFile) (hp : p ∈ m.insert k v) :
    p = (k, v) ∨ p ∈ m := by
  induction m with
  | nil => simpa [Records.insert] using hp
  | cons q rest ih =>
    obtain ⟨k', v'⟩ := q
    by_cases hk : k' = k
    · simp [Records.insert, hk] at hp
      rcases hp with hp | hp
      · exact Or.inl hp
      · exact Or.inr (List.mem_cons_of_mem _ hp)
    · simp [Records.insert, hk] at hp
      rcases hp with hp | hp
      · exact Or.inr (by simp [hp])
      · rcases ih hp with h | h
        · exact Or.inl h
        · exact Or.inr (List.mem_cons_of_mem _ h)

theorem Records.mem_of_get_eq_some (m : Records) (k : String)
    (v : TimestampedFile) (hv : m.get k = some v) : (k, v) ∈ m := by
  induction m with
  | nil => simp [Records.get] at hv
  | cons p rest ih =>
    obtain ⟨k', v'⟩ := p
    by_cases hk : k' = k
    · subst hk
      simp [Records.get] at hv
      simp [hv]
    · simp [Records.get, hk] at hv
      exact List.mem_cons_of_mem _ (ih hv)

theorem Records.get_isSome_of_mem_keys (m : Records) (k : String)
    (hk : k ∈ m.keys) : ∃ v, m.get k = some v := by
  induction m with
  | nil => simp [Records.keys] at hk
  | cons p rest ih =>
    obtain ⟨k', v'⟩ := p
    by_cases hkk : k' = k
    · exact ⟨v', by simp [Records.get, hkk]⟩
    · simp [Records.keys] at hk
      rcases hk with hk | hk
      · exact absurd hk.symm hkk
      · obtain ⟨v, hv⟩ := ih hk
        exact ⟨v, by simp [Records.get, hkk, hv]⟩

/-! Lemmas about operation sequences -/

theorem mem_keys_applyOp (keccak : List Nat → List Nat) (s : ProofOfTimestamp)
    (op : Op) (k : String) (hk : k ∈ s.records.keys) :
    k ∈ (applyOp keccak s op).records.keys := by
  cases op with
  | stamp h t => exact Records.mem_keys_insert_of_mem _ _ _ _ hk
  | get h => exact hk

theorem mem_keys_runOps (keccak : List Nat → List Nat) (s : ProofOfTimestamp)
    (ops : List Op) (k : String) (hk : k ∈ s.records.keys) :
    k ∈ (runOps keccak s ops).records.keys := by
  induction ops generalizing s with
  | nil => exact hk
  | cons op rest ih => exact ih (applyOp keccak s op) (mem_keys_applyOp keccak s op k hk)

theorem mem_keys_runOps_of_stamp_mem (keccak : List Nat → List Nat)
    (s : ProofOfTimestamp) (ops : List Op) (h : String) (t : Nat)
    (hmem : Op.stamp h t ∈ ops) : h ∈ (runOps keccak s ops).records.keys := by
  induction ops generalizing s with
  | nil => simp at hmem
  | cons op rest ih =>
    rcases List.mem_cons.mp hmem with heq | hmem
    · subst heq
      exact mem_keys_runOps keccak _ rest h (Records.self_mem_keys_insert _ _ _)
    · exact ih (applyOp keccak s op) hmem

theorem not_mem_keys_runOps (keccak : List Nat → List Nat)
    (s : ProofOfTimestamp) (ops : List Op) (h : String)
    (hno : ∀ t, Op.stamp h t ∉ ops) (hk : h ∉ s.records.keys) :
    h ∉ (runOps keccak s ops).records.keys := by
  induction ops generalizing s with
  | nil => exact hk
  | cons op rest ih =>
    have hno' : ∀ t, Op.stamp h t ∉ rest := fun t ht =>
      hno t (List.mem_cons_of_mem _ ht)
    cases op with
    | stamp h' t' =>
      have hne : h' ≠ h := fun he => hno t' (by simp [he])
      exact ih _ hno' (Records.not_mem_keys_insert _ _ _ _ hne hk)
    | get h' => exact ih _ hno' hk

theorem Inv_applyOp (keccak : List Nat → List Nat) (s : ProofOfTimestamp)
    (op : Op) (hinv : Inv keccak s) : Inv keccak (applyOp keccak s op) := by
  cases op with
  | stamp h t =>
    intro p hp
    rcases Records.mem_insert _ _ _ _ hp with heq | hmem
    · subst heq
      rfl
    · exact hinv p hmem
  | get h => exact hinv

theorem Inv_runOps (keccak : List Nat → List Nat) (s : ProofOfTimestamp)
    (ops : List Op) (hinv : Inv keccak s) : Inv keccak (runOps keccak s ops) := by
  induction ops generalizing s with
  | nil => exact hinv
  | cons op rest ih => exact ih _ (Inv_applyOp keccak s op hinv)

theorem runOps_eq_runStamps (keccak : List Nat → List Nat)
    (s : ProofOfTimestamp) (ops : List Op) :
    runOps keccak s ops = runStamps keccak s (stampsOf ops) := by
  induction ops generalizing s with
  | nil => rfl
  | cons op rest ih =>
    cases op with
    | stamp h t => exact ih _
    | get h => exact ih _

theorem get_runOps_no_stamp_same_key (keccak : List Nat → List Nat)
    (s : ProofOfTimestamp) (ops : List Op) (h : String)
    (hno : ∀ t, Op.stamp h t ∉ ops) :
    (runOps keccak s ops).records.get h = s.records.get h := by
  induction ops generalizing s with
  | nil => rfl
  | cons op rest ih =>
    have hno' : ∀ t, Op.stamp h t ∉ rest := fun t ht =>
      hno t (List.mem_cons_of_mem _ ht)
    cases op with
    | stamp h' t' =>
      have hne : h' ≠ h := fun he => hno t' (by simp [he])
      calc (runOps keccak (stamp keccak s h' t') rest).records.get h
          = (stamp keccak s h' t').records.get h := ih _ hno'
        _ = s.records.get h := Records.get_insert_ne _ _ _ _ hne
    | get h' => exact ih _ hno'

/-! The claims -/

/-- C1: Round-trip.  For every ledger state, every string `h` and every
logical time `t`, after `stamp(h)` executed while the Time Source returns
`t`, `get_stamp(h)` returns `TimestampedFile` with timestamp `t` and
commitment `keccak256` of the bytes of `h` followed by the decimal string
of `t`. -/
theorem round_trip (keccak : List Nat → List Nat) (s : ProofOfTimestamp)
    (h : String) (t : Nat) :
    get_stamp (stamp keccak s h t) h =
      { timestamp := t,
        time_stamped_file_hash := keccak (strBytes (h ++ toString t)) } := by
  simp [get_stamp, stamp, Records.get_insert_self, commitment]

/-- C2: Default on miss.  Starting from the empty ledger, for any sequence
of operations that never stamps `h`, `h` is not a key of the records map
and `get_stamp(h)` returns the default sentinel with timestamp `0` and
empty commitment. -/
theorem get_stamp_default_on_miss (keccak : List Nat → List Nat)
    (ops : List Op) (h : String) (hno : ∀ t, Op.stamp h t ∉ ops) :
    h ∉ (runOps keccak ProofOfTimestamp.default ops).records.keys ∧
    get_stamp (runOps keccak ProofOfTimestamp.default ops) h
      = TimestampedFile.default := by
  have hk : h ∉ (runOps keccak ProofOfTimestamp.default ops).records.keys :=
    not_mem_keys_runOps keccak ProofOfTimestamp.default ops h hno
      (by simp [ProofOfTimestamp.default, Records.keys])
  exact ⟨hk, by simp [get_stamp, Records.get_eq_none_of_not_mem_keys _ _ hk]⟩

/-- C2 witness: stamping only "a" leaves `get_stamp "b"` at the default. -/
theorem get_stamp_default_on_miss_witness :
    "b" ∉ (runOps keccakW ProofOfTimestamp.default
        [Op.stamp "a" 1, Op.get "b"]).records.keys ∧
    get_stamp (runOps keccakW ProofOfTimestamp.default
        [Op.stamp "a" 1, Op.get "b"]) "b" = TimestampedFile.default :=
  get_stamp_default_on_miss keccakW [Op.stamp "a" 1, Op.get "b"] "b"
    (by intro t ht; simp at ht)

/-- C3: Overwrite semantics.  Stamping `h` at `t₁` and again at `t₂`
leaves `get_stamp(h)` returning only the record built from `t₂`, and the
whole observable ledger equals the one obtained by stamping once at `t₂`:
the `t₁` record is unrecoverable through the interface. -/
theorem stamp_overwrite (keccak : List Nat → List Nat) (s : ProofOfTimestamp)
    (h : String) (t₁ t₂ : Nat) :
    get_stamp (stamp keccak (stamp keccak s h t₁) h t₂) h =
      { timestamp := t₂, time_stamped_file_hash := commitment keccak h t₂ } ∧
    ∀ k, get_stamp (stamp keccak (stamp keccak s h t₁) h t₂) k =
      get_stamp (stamp keccak s h t₂) k := by
  constructor
  · simp [get_stamp, stamp, Records.get_insert_self]
  · intro k
    simp [get_stamp, stamp, Records.insert_insert_self]

/-- C4: Commitment computation.  The commitment stored by `stamp` equals
the hash of the byte concatenation of the file hash and the decimal string
of the time, and it is a pure function of `(file_hash, t)`: two stamps
with the same inputs, from any two states, store identical commitments. -/
theorem commitment_pure (keccak : List Nat → List Nat)
    (s₁ s₂ : ProofOfTimestamp) (h : String) (t : Nat) :
    (get_stamp (stamp keccak s₁ h t) h).time_stamped_file_hash =
      keccak (strBytes (h ++ toString t)) ∧
    (get_stamp (stamp keccak s₁ h t) h).time_stamped_file_hash =
      (get_stamp (stamp keccak s₂ h t) h).time_stamped_file_hash := by
  simp [get_stamp, stamp, Records.get_insert_self, commitment]

/-- C5: Isolation.  `stamp(h₁)` leaves both the stored entry (or its
absence) and the `get_stamp` result for any other key `h₂` unchanged. -/
theorem stamp_isolation (keccak : List Nat → List Nat) (s : ProofOfTimestamp)
    (h₁ h₂ : String) (t : Nat) (hne : h₁ ≠ h₂) :
    (stamp keccak s h₁ t).records.get h₂ = s.records.get h₂ ∧
    get_stamp (stamp keccak s h₁ t) h₂ = get_stamp s h₂ := by
  have hg := Records.get_insert_ne s.records h₁ h₂
    { timestamp := t, time_stamped_file_hash := commitment keccak h₁ t } hne
  exact ⟨hg, by simp [get_stamp, stamp, hg]⟩

/-- C5 witness at `h₁ = "a"`, `h₂ = "b"`. -/
theorem stamp_isolation_witness :
    (stamp keccakW ProofOfTimestamp.default "a" 5).records.get "b" =
      ProofOfTimestamp.default.records.get "b" ∧
    get_stamp (stamp keccakW ProofOfTimestamp.default "a" 5) "b" =
      get_stamp ProofOfTimestamp.default "b" :=
  stamp_isolation keccakW ProofOfTimestamp.default "a" "b" 5 (by decide)

/-- C6: Determinism across instances.  Two ledgers, both starting empty,
fed the same sequence of `(file_hash, time)` pairs via `stamp` (regardless
of interleaved `get_stamp` calls), give the same `get_stamp` result on
every key. -/
theorem determinism_across_instances (keccak : List Nat → List Nat)
    (ops₁ ops₂ : List Op) (hsame : stampsOf ops₁ = stampsOf ops₂)
    (k : String) :
    get_stamp (runOps keccak ProofOfTimestamp.default ops₁) k =
      get_stamp (runOps keccak ProofOfTimestamp.default ops₂) k := by
  rw [runOps_eq_runStamps, runOps_eq_runStamps, hsame]

/-- C6 witness: two instances with the same stamp sequence but different
reads agree on key "a". -/
theorem determinism_across_instances_witness :
    stampsOf [Op.get "q", Op.stamp "a" 7] = stampsOf [Op.stamp "a" 7, Op.get "r"] ∧
    get_stamp (runOps keccakW ProofOfTimestamp.default
        [Op.get "q", Op.stamp "a" 7]) "a" =
      get_stamp (runOps keccakW ProofOfTimestamp.default
        [Op.stamp "a" 7, Op.get "r"]) "a" :=
  ⟨by decide,
    determinism_across_instances keccakW [Op.get "q", Op.stamp "a" 7]
      [Op.stamp "a" 7, Op.get "r"] (by decide) "a"⟩

/-- C7: `get_stamp` is a pure total read.  On every ledger state a
`get_stamp` call leaves the state unchanged, and repeated `get_stamp(h)`
calls return identical results across any intervening operations with no
`stamp` call for the same key `h` — stamps of other keys included. -/
theorem get_stamp_pure (keccak : List Nat → List Nat) (s : ProofOfTimestamp)
    (ops : List Op) (h : String) (hno : ∀ t, Op.stamp h t ∉ ops) :
    applyOp keccak s (Op.get h) = s ∧
    get_stamp (runOps keccak s ops) h = get_stamp s h := by
  refine ⟨rfl, ?_⟩
  simp [get_stamp, get_runOps_no_stamp_same_key keccak s ops h hno]

/-- C7 witness: reads of "a" agree across an intervening read of "x" and a
stamp of the other key "b". -/
theorem get_stamp_pure_witness :
    applyOp keccakW (stamp keccakW ProofOfTimestamp.default "a" 3)
        (Op.get "a") =
      stamp keccakW ProofOfTimestamp.default "a" 3 ∧
    get_stamp (runOps keccakW (stamp keccakW ProofOfTimestamp.default "a" 3)
        [Op.get "x", Op.stamp "b" 7, Op.get "a"]) "a" =
      get_stamp (stamp keccakW ProofOfTimestamp.default "a" 3) "a" :=
  get_stamp_pure keccakW (stamp keccakW ProofOfTimestamp.default "a" 3)
    [Op.get "x", Op.stamp "b" 7, Op.get "a"] "a"
    (by intro t ht; simp at ht)

/-- C8: No transition ever removes a record.  For every ledger state and
every operation, any key of the records map before the operation is still
a key afterwards. -/
theorem no_record_removed (keccak : List Nat → List Nat)
    (s : ProofOfTimestamp) (op : Op) (k : String)
    (hk : k ∈ s.records.keys) : k ∈ (applyOp keccak s op).records.keys :=
  mem_keys_applyOp keccak s op k hk

/-- C8 witness: the key "a" survives a stamp of "b". -/
theorem no_record_removed_witness :
    "a" ∈ (stamp keccakW ProofOfTimestamp.default "a" 5).records.keys ∧
    "a" ∈ (applyOp keccakW (stamp keccakW ProofOfTimestamp.default "a" 5)
        (Op.stamp "b" 7)).records.keys :=
  ⟨by decide,
    no_record_removed keccakW (stamp keccakW ProofOfTimestamp.default "a" 5)
      (Op.stamp "b" 7) "a" (by decide)⟩

/-- C9: Stored-commitment invariant.  In any ledger reachable from the
empty one, every stored record commits to the key it is filed under and
to its own stored timestamp. -/
theorem stored_commitment_matches (keccak : List Nat → List Nat)
    (ops : List Op) (k : String) (v : TimestampedFile)
    (hmem : (k, v) ∈ (runOps keccak ProofOfTimestamp.default ops).records) :
    v.time_stamped_file_hash = commitment keccak k v.timestamp := by
  have hinv : Inv keccak (runOps keccak ProofOfTimestamp.default ops) :=
    Inv_runOps keccak ProofOfTimestamp.default ops
      (by intro p hp; simp [ProofOfTimestamp.default] at hp)
  exact hinv (k, v) hmem

/-- C9 witness: the record stored for "a" at time 5 carries the expected
commitment. -/
theorem stored_commitment_matches_witness :
    (("a", ({ timestamp := 5, time_stamped_file_hash := [2] } :
        TimestampedFile)) ∈
      (runOps keccakW ProofOfTimestamp.default [Op.stamp "a" 5]).records) ∧
    ({ timestamp := 5, time_stamped_file_hash := [2] } :
        TimestampedFile).time_stamped_file_hash = commitment keccakW "a" 5 :=
  ⟨by decide,
    stored_commitment_matches keccakW [Op.stamp "a" 5] "a"
      { timestamp := 5, time_stamped_file_hash := [2] } (by decide)⟩

/-- C10: Sentinel distinguishability.  If the hash function never returns
an empty digest (keccak256 returns 32 bytes), then on any ledger reachable
from the empty one, `get_stamp(h)` returning the default sentinel implies
`h` was never stamped. -/
theorem sentinel_exact (keccak : List Nat → List Nat)
    (hne : ∀ b, keccak b ≠ []) (ops : List Op) (h : String)
    (hdef : get_stamp (runOps keccak ProofOfTimestamp.default ops) h
      = TimestampedFile.default) :
    ∀ t, Op.stamp h t ∉ ops := by
  intro t hmem
  have hkeys := mem_keys_runOps_of_stamp_mem keccak ProofOfTimestamp.default
    ops h t hmem
  obtain ⟨v, hv⟩ := Records.get_isSome_of_mem_keys _ _ hkeys
  have hinv : Inv keccak (runOps keccak ProofOfTimestamp.default ops) :=
    Inv_runOps keccak ProofOfTimestamp.default ops
      (by intro p hp; simp [ProofOfTimestamp.default] at hp)
  have hvc := hinv (h, v) (Records.mem_of_get_eq_some _ _ _ hv)
  have hgv : get_stamp (runOps keccak ProofOfTimestamp.default ops) h = v := by
    simp [get_stamp, hv]
  have hveq : v = TimestampedFile.default := by rw [← hgv, hdef]
  rw [hveq] at hvc
  simp [TimestampedFile.default, commitment] at hvc
  exact hne _ hvc

/-- C10 witness: with a never-empty hash, a ledger that only stamped "a"
answers the default for "b", and indeed "b" was never stamped. -/
theorem sentinel_exact_witness :
    get_stamp (runOps keccakW ProofOfTimestamp.default [Op.stamp "a" 1]) "b"
      = TimestampedFile.default ∧
    Op.stamp "b" 3 ∉ [Op.stamp "a" 1] :=
  ⟨by decide,
    sentinel_exact keccakW (fun b hb => List.noConfusion hb)
      [Op.stamp "a" 1] "b" (by decide) 3⟩

end ProofOfTimestampContract
